import Mathlib

/-!
# Verification of the migrations subsystem

A shallow embedding of the repository's migration engine
(`src/db/migrations/migration.py`) and loader
(`src/db/migrations/loader.py`), with theorems checking the
natural-language specification against the code.

Conventions:
* Python strings are `String`, `(app_label, name)` keys are `String × String`.
* A Python attribute that may be `True`/`False`/`None` is `Option Bool`
  (`none` = `None`); Python truthiness of such a value is `truthy`.
* State snapshots (`ProjectState`) are values of an abstract type `σ`;
  an operation's `state_forwards(app_label, state)` is the field
  `state_forwards : String → σ → σ`.  A second, heap-based model captures
  Python object identity where a claim is about in-place mutation.
* Calls to the storage adapter (`database_forwards`/`database_backwards`)
  are recorded as an explicit event trace (`DBCall`), including whether the
  call ran inside its own `atomic(...)` block.  SQL-comment bookkeeping of
  `collect_sql` mode (pure logging) is elided; its control flow (the
  `continue` for operations with `reduces_to_sql == False`) is kept.
-/

namespace MigrationsModel

/-- A migration key `(app_label, migration_name)`. -/
abbrev Key := String × String

/-- Abstract schema operation: exactly the attributes of operation objects
that `migration.py` and `loader.py` read.  `op_str` models Python
`str(operation)` (used in error messages). -/
structure Operation (σ : Type) where
  op_str : String
  reduces_to_sql : Bool
  reversible : Bool
  atomic : Option Bool
  migration_name_fragment : Option String
  state_forwards : String → σ → σ

/-- `Migration` (migration.py): name, app label, and the per-instance copies
of the class attributes. -/
structure Migration (σ : Type) where
  name : String
  app_label : String
  operations : List (Operation σ)
  dependencies : List Key
  run_before : List Key
  replaces : List Key
  initial : Option Bool
  atomic : Bool

/-- Python truthiness of a `True`/`False`/`None` attribute. -/
def truthy : Option Bool → Bool
  | some b => b
  | none => false

/-- migration.py line 93: the value of
`operation.atomic or (self.atomic and operation.atomic is not False)`
under Python truthiness (`None` and `False` are falsy). -/
def atomic_operation (op_atomic : Option Bool) (self_atomic : Bool) : Bool :=
  truthy op_atomic || (self_atomic && !(op_atomic == some false))

/-- The attribute of the schema editor that `Migration.apply`/`unapply`
read: whether a transaction for the whole migration is already running. -/
structure SchemaEditor where
  atomic_migration : Bool

/-- One `database_forwards` / `database_backwards` call issued to the schema
editor: the operation, whether the call ran inside its own scoped
`atomic(...)` transaction, and the two state arguments passed. -/
structure DBCall (σ : Type) where
  op_str : String
  wrapped : Bool
  from_state : σ
  to_state : σ
deriving DecidableEq

variable {σ : Type}

/-- The loop body of `Migration.apply` (migration.py lines 76-109) over the
remaining operations: threads the project state and records the adapter
calls.  In value semantics `project_state.clone()` is the current value. -/
def applyOps (app_label : String) (self_atomic : Bool) (ed : SchemaEditor)
    (collect_sql : Bool) : List (Operation σ) → σ → σ × List (DBCall σ)
  | [], s => (s, [])
  | op :: ops, s =>
    if collect_sql && !op.reduces_to_sql then
      applyOps app_label self_atomic ed collect_sql ops s
    else
      let old_state := s
      let s' := op.state_forwards app_label s
      let wrapped := !ed.atomic_migration && atomic_operation op.atomic self_atomic
      let rest := applyOps app_label self_atomic ed collect_sql ops s'
      (rest.1, ⟨op.op_str, wrapped, old_state, s'⟩ :: rest.2)

/-- migration.py `Migration.apply`: returns the resulting project state and
the trace of `database_forwards` calls. -/
def Migration.apply (m : Migration σ) (project_state : σ) (ed : SchemaEditor)
    (collect_sql : Bool) : σ × List (DBCall σ) :=
  applyOps m.app_label m.atomic ed collect_sql m.operations project_state

/-- migration.py `Migration.mutate_state`: run every operation's
`state_forwards` in declared order.  In value semantics the `preserve`
flag (clone first or not) does not change the returned value; the aliasing
difference is captured by the heap model below. -/
def Migration.mutate_state (m : Migration σ) (project_state : σ)
    (preserve : Bool) : σ :=
  m.operations.foldl (fun s op => op.state_forwards m.app_label s) project_state

/-- Phase 1 of `Migration.unapply` (migration.py lines 127-141): replay the
operations forward, building `to_run` exactly as
`to_run.insert(0, (operation, old_state, new_state))` does, or raise
`IrreversibleError` at the first operation with `reversible == False`.
`err_mig` is Python `str(self)`, i.e. `"app_label.name"`. -/
def unapplyPhase1 (app_label : String) (err_mig : String) :
    List (Operation σ) → σ → Except String (List (Operation σ × σ × σ))
  | [], _ => .ok []
  | op :: ops, s =>
    if !op.reversible then
      .error ("Operation " ++ op.op_str ++ " in " ++ err_mig ++ " is not reversible")
    else
      let new_state := op.state_forwards app_label s
      match unapplyPhase1 app_label err_mig ops new_state with
      | .error e => .error e
      | .ok rest => .ok (rest ++ [(op, s, new_state)])

/-- Phase 2 of `Migration.unapply` (migration.py lines 144-171): iterate the
recorded triples destructured as `(operation, to_state, from_state)` and call
`database_backwards(app_label, editor, from_state, to_state)`. -/
def unapplyPhase2 (self_atomic : Bool) (ed : SchemaEditor) (collect_sql : Bool) :
    List (Operation σ × σ × σ) → List (DBCall σ)
  | [] => []
  | (op, to_state, from_state) :: rest =>
    if collect_sql && !op.reduces_to_sql then
      unapplyPhase2 self_atomic ed collect_sql rest
    else
      let wrapped := !ed.atomic_migration && atomic_operation op.atomic self_atomic
      ⟨op.op_str, wrapped, from_state, to_state⟩ ::
        unapplyPhase2 self_atomic ed collect_sql rest

/-- migration.py `Migration.unapply`: either the `IrreversibleError` message
(with an empty trace: the error is raised in phase 1, before any
`database_backwards` call), or the returned `project_state` together with
the trace of `database_backwards` calls. -/
def Migration.unapply (m : Migration σ) (project_state : σ) (ed : SchemaEditor)
    (collect_sql : Bool) : Except String σ × List (DBCall σ) :=
  match unapplyPhase1 m.app_label (m.app_label ++ "." ++ m.name)
      m.operations project_state with
  | .error e => (.error e, [])
  | .ok to_run => (.ok project_state, unapplyPhase2 m.atomic ed collect_sql to_run)

/-- Forward state after running a list of operations (used to state the
two-phase unapply theorem). -/
def foldFwd (app_label : String) (ops : List (Operation σ)) (s : σ) : σ :=
  ops.foldl (fun st op => op.state_forwards app_label st) s

/-- migration.py `Migration.__eq__`: equality is the `(name, app_label)` pair
only. -/
def Migration.eq (a b : Migration σ) : Bool :=
  a.name == b.name && a.app_label == b.app_label

/-- The string `"%s.%s" % (app_label, name)` whose Python `hash` is
`Migration.__hash__`. -/
def Migration.hashStr (m : Migration σ) : String :=
  m.app_label ++ "." ++ m.name

/-- ASCII model of the regex word character class `\w` used by
`re.sub(r"\W+", "_", name)` in `suggest_name`. -/
def isWordChar (c : Char) : Bool :=
  c.isAlphanum || c == '_'

/-- Replace every maximal run of non-word characters by a single `_`
(the effect of `re.sub(r"\W+", "_", ...)`); the boolean tracks whether the
previous character was inside such a run. -/
def sanitizeAux : Bool → List Char → List Char
  | _, [] => []
  | inRun, c :: cs =>
    if isWordChar c then c :: sanitizeAux false cs
    else if inRun then sanitizeAux true cs
    else '_' :: sanitizeAux true cs

/-- `re.sub(r"\W+", "_", name)` (migration.py line 185). -/
def sanitizeFragment (s : String) : String :=
  String.mk (sanitizeAux false s.data)

/-- Python truthiness of `op.migration_name_fragment` (the filter
`if name` in migration.py line 185). -/
def fragTruthy (op : Operation σ) : Bool :=
  match op.migration_name_fragment with
  | some s => !s.isEmpty
  | none => false

/-- One operation's contribution to the `fragments` list of `suggest_name`:
its sanitized fragment if the fragment is truthy, else nothing. -/
def fragOpt (op : Operation σ) : Option String :=
  match op.migration_name_fragment with
  | some s => if s.isEmpty then none else some (sanitizeFragment s)
  | none => none

/-- The list `fragments` of `suggest_name` (migration.py lines 184-185):
sanitized fragments of the operations whose fragment is truthy. -/
def migFragments (m : Migration σ) : List String :=
  m.operations.filterMap fragOpt

/-- The incremental-join loop of `suggest_name` (migration.py lines
190-196): append fragments while the name stays within 52 characters,
else append `"_and_more"` and stop. -/
def suggestJoin : String → List String → String
  | name, [] => name
  | name, f :: fs =>
    let new_name := name ++ "_" ++ f
    if new_name.length > 52 then name ++ "_and_more" else suggestJoin new_name fs

/-- migration.py `Migration.suggest_name`; `ts` is the value of
`get_migration_name_timestamp()` (external clock, passed in). -/
def Migration.suggest_name (m : Migration σ) (ts : String) : String :=
  if truthy m.initial then "initial"
  else
    match migFragments m with
    | [] => "auto_" ++ ts
    | f :: fs =>
      if (f :: fs).length ≠ m.operations.length then "auto_" ++ ts
      else suggestJoin f fs

/-- Left-to-right join of fragments with `"_"` starting from `name`
(used to state the `suggest_name` theorem). -/
def joinFrom (name : String) (fs : List String) : String :=
  fs.foldl (fun a b => a ++ "_" ++ b) name

/-! ## Loader (`src/db/migrations/loader.py`)

The migration graph class itself (`django.db.migrations.graph`) is not part
of this repository's sources; only the loader's calls into it are.  The
graph is represented as its node list and its edge list (edges are
`(child, parent)` pairs: the child depends on the parent), and the graph
methods the loader calls are modelled from the spec where noted. -/

/-- The data of `MigrationGraph` that the loader reads and writes:
`nodes` (keys of `self.nodes`/`self.node_map`) and the dependency edges. -/
structure MigrationGraph where
  nodes : List Key
  edges : List (Key × Key)
deriving DecidableEq

/-- Parents of a node, as `self.graph.node_map[key].parents`. -/
def parentsOf (g : MigrationGraph) (k : Key) : List Key :=
  (g.edges.filter fun e => e.1 == k).map fun e => e.2

/-- Modelled from the spec: `MigrationGraph.remove_replaced_nodes` is not in
this repository's sources.  Per spec section 4.1 it re-points every dependent
of a replaced key to the replacement, gives the replacement every external
(non-replaced) parent the replaced keys had, and deletes the replaced nodes
and their edges. -/
def remove_replaced_nodes (g : MigrationGraph) (replacement : Key)
    (replaced : List Key) : MigrationGraph :=
  { nodes := g.nodes.filter fun k => !(decide (k ∈ replaced)),
    edges := g.edges.foldr (fun e acc =>
      if decide (e.2 ∈ replaced) then
        (if decide (e.1 ∈ replaced) then acc else (e.1, replacement) :: acc)
      else if decide (e.1 ∈ replaced) then (replacement, e.2) :: acc
      else e :: acc) [] }

/-- Modelled from the spec: `MigrationGraph.remove_replacement_node` is not
in this repository's sources.  Per spec section 4.1 it deletes the
replacement node and re-points every dependent that pointed at it to the
last key of `replaced`. -/
def remove_replacement_node (g : MigrationGraph) (replacement : Key)
    (replaced : List Key) : MigrationGraph :=
  { nodes := g.nodes.filter fun k => !(k == replacement),
    edges := g.edges.foldr (fun e acc =>
      if e.1 == replacement then acc
      else if e.2 == replacement then
        match replaced.getLast? with
        | some last => (e.1, last) :: acc
        | none => acc
      else e :: acc) [] }

/-- The loader state that the replacement-processing loop of `build_graph`
mutates: `self.graph` and the key set of `self.applied_migrations`. -/
structure LoaderState where
  graph : MigrationGraph
  applied_migrations : List Key
deriving DecidableEq

/-- One iteration of the replacement loop of `MigrationLoader.build_graph`
(loader.py lines 297-318) for the entry `(key, migration.replaces)`:
compute the applied statuses of the replacement targets, update the applied
view of the replacement key, and fold (`remove_replaced_nodes`) when the
statuses are all true or all false, else unfold (`remove_replacement_node`). -/
def processReplacement (st : LoaderState) (entry : Key × List Key) : LoaderState :=
  let applied_statuses :=
    entry.2.map fun target => decide (target ∈ st.applied_migrations)
  let applied' :=
    if applied_statuses.all id then
      if decide (entry.1 ∈ st.applied_migrations) then st.applied_migrations
      else st.applied_migrations ++ [entry.1]
    else st.applied_migrations.filter fun k => !(k == entry.1)
  let graph' :=
    if applied_statuses.all id || !(applied_statuses.any id) then
      remove_replaced_nodes st.graph entry.1 entry.2
    else
      remove_replacement_node st.graph entry.1 entry.2
  { graph := graph', applied_migrations := applied' }

/-- The whole replacement loop of `build_graph`, over the entries of
`self.replacements` in iteration order. -/
def processReplacements (entries : List (Key × List Key)) (st : LoaderState) :
    LoaderState :=
  entries.foldl processReplacement st

/-- Lexicographic order on keys, for the deterministic ordering of
`root_nodes`/`leaf_nodes` described by the spec. -/
def keyLE (a b : Key) : Bool :=
  decide (a.1 < b.1) || (a.1 == b.1 && decide (a.2 ≤ b.2))

/-- Insert into a `keyLE`-sorted list. -/
def insertSorted (a : Key) : List Key → List Key
  | [] => [a]
  | b :: bs => if keyLE a b then a :: b :: bs else b :: insertSorted a bs

/-- Insertion sort by `keyLE` (lexicographic order on keys). -/
def sortKeys : List Key → List Key
  | [] => []
  | a :: as => insertSorted a (sortKeys as)

/-- Modelled from the spec: `MigrationGraph.root_nodes` is not in this
repository's sources.  Per spec section 4.1: the nodes of one component
with no parents, in lexicographic order. -/
def root_nodes (g : MigrationGraph) (app : String) : List Key :=
  sortKeys (g.nodes.filter fun n => n.1 == app && !(g.edges.any fun e => e.1 == n))

/-- Modelled from the spec: `MigrationGraph.leaf_nodes` is not in this
repository's sources.  Per spec section 4.1: the nodes of one component
with no children, in lexicographic order. -/
def leaf_nodes (g : MigrationGraph) (app : String) : List Key :=
  sortKeys (g.nodes.filter fun n => n.1 == app && !(g.edges.any fun e => e.2 == n))

/-- The loader attributes that `check_key` reads besides the graph. -/
structure LoaderEnv where
  unmigrated_apps : List String
  migrated_apps : List String
  ignore_no_migrations : Bool

/-- loader.py `MigrationLoader.check_key` (lines 186-214): resolve a
dependency key, special-casing the `__first__`/`__latest__` sentinels.
`.ok none` is Python `return` / `return None` (dependency ignored);
`.error` is the raised `ValueError`. -/
def check_key (env : LoaderEnv) (g : MigrationGraph) (key : Key)
    (current_app : String) : Except String (Option Key) :=
  if (!(key.2 == "__first__") && !(key.2 == "__latest__")) ||
      decide (key ∈ g.nodes) then .ok (some key)
  else if key.1 == current_app then .ok none
  else if decide (key.1 ∈ env.unmigrated_apps) then .ok none
  else if decide (key.1 ∈ env.migrated_apps) then
    match (if key.2 == "__first__" then root_nodes g key.1
           else leaf_nodes g key.1).head? with
    | some k => .ok (some k)
    | none =>
      if env.ignore_no_migrations then .ok none
      else .error ("Dependency on app with no migrations: " ++ key.1)
  else .error ("Dependency on unknown app: " ++ key.1)

/-- loader.py `MigrationLoader.add_internal_dependencies` (lines 231-239):
the edges `graph.add_dependency(migration, key, parent)` adds for the
declared dependencies whose target is the same app, skipping `__first__`. -/
def add_internal_dependencies (key : Key) (dependencies : List Key) :
    List (Key × Key) :=
  dependencies.filterMap fun parent =>
    if parent.1 == key.1 && !(parent.2 == "__first__") then some (key, parent)
    else none

/-- The `dependencies` loop of `add_external_dependencies` (loader.py lines
243-249): same-app dependencies are skipped, others resolve via `check_key`. -/
def extDepEdges (env : LoaderEnv) (g : MigrationGraph) (key : Key) :
    List Key → Except String (List (Key × Key))
  | [] => .ok []
  | parent :: rest =>
    if key.1 == parent.1 then extDepEdges env g key rest
    else
      match check_key env g parent key.1 with
      | .error e => .error e
      | .ok none => extDepEdges env g key rest
      | .ok (some p) =>
        match extDepEdges env g key rest with
        | .error e => .error e
        | .ok es => .ok ((key, p) :: es)

/-- The `run_before` loop of `add_external_dependencies` (loader.py lines
251-254): the migration declares it must run before `child`, adding the
edge `(child, key)`. -/
def runBeforeEdges (env : LoaderEnv) (g : MigrationGraph) (key : Key) :
    List Key → Except String (List (Key × Key))
  | [] => .ok []
  | child :: rest =>
    match check_key env g child key.1 with
    | .error e => .error e
    | .ok none => runBeforeEdges env g key rest
    | .ok (some c) =>
      match runBeforeEdges env g key rest with
      | .error e => .error e
      | .ok es => .ok ((c, key) :: es)

/-- loader.py `MigrationLoader.add_external_dependencies` (lines 242-254):
the edges added for one migration's cross-app dependencies and `run_before`
declarations. -/
def add_external_dependencies (env : LoaderEnv) (g : MigrationGraph) (key : Key)
    (dependencies run_before : List Key) : Except String (List (Key × Key)) :=
  match extDepEdges env g key dependencies with
  | .error e => .error e
  | .ok es1 =>
    match runBeforeEdges env g key run_before with
    | .error e => .error e
    | .ok es2 => .ok (es1 ++ es2)

/-- The inner loop of `check_consistent_history` (loader.py lines 371-389):
the first parent of an applied migration that is itself unapplied and is not
a squash with all of its `replaces` applied. -/
def firstUnsatisfiedParent (replacements : List (Key × List Key))
    (applied : List Key) : List Key → Option Key
  | [] => none
  | p :: ps =>
    if decide (p ∈ applied) then firstUnsatisfiedParent replacements applied ps
    else
      match replacements.lookup p with
      | some rl =>
        if rl.all (fun x => decide (x ∈ applied)) then
          firstUnsatisfiedParent replacements applied ps
        else some p
      | none => some p

/-- The outer loop of `check_consistent_history`: applied migrations missing
from the graph are skipped; otherwise the first unsatisfied parent raises. -/
def cchAux (g : MigrationGraph) (replacements : List (Key × List Key))
    (applied : List Key) : List Key → Except (Key × Key) Unit
  | [] => .ok ()
  | m :: rest =>
    if !(decide (m ∈ g.nodes)) then cchAux g replacements applied rest
    else
      match firstUnsatisfiedParent replacements applied (parentsOf g m) with
      | some p => .error (m, p)
      | none => cchAux g replacements applied rest

/-- loader.py `MigrationLoader.check_consistent_history` (lines 356-389):
`.error (child, parent)` is the raised `InconsistentMigrationHistory`
naming the offending child/parent pair. -/
def check_consistent_history (g : MigrationGraph)
    (replacements : List (Key × List Key)) (applied : List Key) :
    Except (Key × Key) Unit :=
  cchAux g replacements applied applied

/-- The two caller-input errors of `get_migration_by_prefix`:
`AmbiguityError` and the raised `KeyError`. -/
inductive PrefixError where
  | ambiguity (msg : String)
  | not_found (msg : String)
deriving DecidableEq

/-- Python `migration_name.startswith(name_prefix)` (kernel-reducible model
of `String.startsWith`). -/
def startswith (s p : String) : Bool :=
  p.data.isPrefixOf s.data

/-- loader.py `MigrationLoader.get_migration_by_prefix` (lines 162-184):
`disk_migrations` is the association list of disk-resident migrations in
dict iteration order. -/
def get_migration_by_prefix (disk_migrations : List (Key × Migration σ))
    (app_label : String) ( name_prefix : String) :
    Except PrefixError (Migration σ) :=
  let results := disk_migrations.filter fun kv =>
    kv.1.1 == app_label && startswith kv.1.2 name_prefix
  if results.length > 1 then
    .error (.ambiguity ("There is more than one migration for '" ++ app_label ++
      "' with the prefix '" ++ name_prefix ++ "'"))
  else
    match results with
    | [] => .error (.not_found ("There is no migration for '" ++ app_label ++
        "' with the prefix '" ++ name_prefix ++ "'"))
    | kv :: _ => .ok kv.2

/-! ## Heap model of `Migration.apply`

Python `ProjectState` objects are mutable; `Migration.apply` mutates the
snapshot it is given in place and returns that very object.  To state this,
states live in an explicit object store: a `Heap σ` is the list of live
snapshot values, an object is its index.  `clone()` appends a copy of the
object's current value; `state_forwards` overwrites the object's slot. -/

/-- The object store: index = object identity, entry = current value. -/
abbrev Heap (σ : Type) := List σ

/-- `Migration.apply` under the object store: per operation,
`old_state = project_state.clone()` allocates a new object, then
`operation.state_forwards` mutates the `project_state` object in place.
The trace records the object ids passed to `database_forwards`.
Returns the heap, the id of the returned `project_state`, and the trace. -/
def applyHeapOps [Inhabited σ] (app_label : String) (self_atomic : Bool)
    (ed : SchemaEditor) (collect_sql : Bool) :
    List (Operation σ) → Heap σ → Nat → Heap σ × Nat × List (DBCall Nat)
  | [], h, sid => (h, sid, [])
  | op :: ops, h, sid =>
    if collect_sql && !op.reduces_to_sql then
      applyHeapOps app_label self_atomic ed collect_sql ops h sid
    else
      let old_id := h.length
      let h1 := h ++ [h.getD sid default]
      let h2 := h1.set sid (op.state_forwards app_label (h1.getD sid default))
      let wrapped := !ed.atomic_migration && atomic_operation op.atomic self_atomic
      let rest := applyHeapOps app_label self_atomic ed collect_sql ops h2 sid
      (rest.1, rest.2.1, ⟨op.op_str, wrapped, old_id, sid⟩ :: rest.2.2)

/-- `Migration.apply` over the object store (same control flow as
`Migration.apply`; physical calls do not touch the store). -/
def Migration.applyHeap [Inhabited σ] (m : Migration σ) (h : Heap σ) (sid : Nat)
    (ed : SchemaEditor) (collect_sql : Bool) : Heap σ × Nat × List (DBCall Nat) :=
  applyHeapOps m.app_label m.atomic ed collect_sql m.operations h sid

/-! ## Concrete fixtures used by witnesses and counterexamples -/

/-- A no-op operation over the trivial state type. -/
def opNoop : Operation Unit :=
  ⟨"noop", true, true, none, none, fun _ s => s⟩

/-- Sample disk migration `app.0001_x`. -/
def mig0001x : Migration Unit :=
  ⟨"0001_x", "app", [opNoop], [], [], [], none, true⟩

/-- Sample disk migration `app.0002_y`. -/
def mig0002y : Migration Unit :=
  ⟨"0002_y", "app", [opNoop], [], [], [], none, true⟩

/-- Sample counting state: operations act on a natural number. -/
def opIncr : Operation Nat :=
  ⟨"incr", true, true, none, none, fun _ s => s + 1⟩

/-- A migration with the same key as `mig0001x` but different operations,
dependencies and flags. -/
def mig0001x' : Migration Unit :=
  ⟨"0001_x", "app", [], [("app", "0000_z")], [], [], some true, false⟩

/-- An operation with `reversible == False`. -/
def opIrrev : Operation Nat :=
  ⟨"irrev", true, false, none, none, fun _ s => s + 1⟩

/-- An operation doubling the counting state. -/
def opDouble : Operation Nat :=
  ⟨"double", true, true, none, none, fun _ s => s * 2⟩

/-- An operation with name fragment `alpha`. -/
def opFragAlpha : Operation Unit :=
  ⟨"alpha_op", true, true, none, some "alpha", fun _ s => s⟩

/-- An operation with name fragment `beta`. -/
def opFragBeta : Operation Unit :=
  ⟨"beta_op", true, true, none, some "beta", fun _ s => s⟩

/-- An operation with no name fragment. -/
def opNoFrag : Operation Unit :=
  ⟨"nofrag", true, true, none, none, fun _ s => s⟩

/-- A migration with an empty operations list (and not initial). -/
def migNoOps : Migration Unit :=
  ⟨"0004_e", "app", [], [], [], [], none, true⟩

/-- A 60-character fragment, longer than the 52-character bound. -/
def longFrag : String := "aaaaaaaaaaaaaaaaaaaaaaaaaaaaaaaaaaaaaaaaaaaaaaaaaaaaaaaaaaaa"

/-- An operation whose name fragment alone exceeds 52 characters. -/
def opFragLong : Operation Unit :=
  ⟨"long_op", true, true, none, some longFrag, fun _ s => s⟩

/-- Key of a plain migration replaced by a squash. -/
def sqA : Key := ("app", "0001_a")

/-- Key of a squash migration replacing `sqA`. -/
def sqS1 : Key := ("app", "0001_squashed")

/-- Key of a second-level squash migration replacing `sqS1`. -/
def sqS2 : Key := ("app", "0001_squashed_squashed")

/-! # Theorems -/

/-- The Python expression of migration.py line 93 equals the spec's
precedence rule: `operation.atomic` set forces its value, unset inherits
`self.atomic`. -/
theorem atomic_operation_precedence (oa : Option Bool) (sa : Bool) :
    atomic_operation oa sa = (match oa with | some b => b | none => sa) := by
  cases oa with
  | none => cases sa <;> rfl
  | some b => cases b <;> cases sa <;> rfl

theorem applyOps_wrapped (app : String) (sa : Bool) (ed : SchemaEditor)
    (ops : List (Operation σ)) (s : σ) :
    ((applyOps app sa ed false ops s).2).map (fun c => c.wrapped) =
      ops.map (fun op => !ed.atomic_migration &&
        (match op.atomic with | some b => b | none => sa)) := by
  induction ops generalizing s with
  | nil => rfl
  | cons op rest ih =>
    simp only [applyOps, Bool.false_and, Bool.not_false, if_neg,
      List.map_cons, atomic_operation_precedence]
    simp [ih]

/-- C2: in `Migration.apply` (physical execution path, `collect_sql=False`),
an operation's `database_forwards` call runs inside its own scoped
transaction exactly when the schema editor is not already running a
whole-migration transaction and the operation's atomicity resolves to true
under the precedence rule: `operation.atomic = True` forces a transaction,
`= False` forces none, unset (`None`) inherits `migration.atomic`. -/
theorem c2_per_operation_transaction (m : Migration σ) (ed : SchemaEditor)
    (s : σ) :
    ((m.apply s ed false).2).map (fun c => c.wrapped) =
      m.operations.map (fun op => !ed.atomic_migration &&
        (match op.atomic with | some b => b | none => m.atomic)) := by
  exact applyOps_wrapped m.app_label m.atomic ed m.operations s

/-- C10: migration identity is its key only — `Migration.eq` holds exactly
when both `name` and `app_label` agree, whatever the other attributes are,
and equal migrations have an equal hash input string `"app_label.name"`. -/
theorem c10_identity_is_key (a b : Migration σ) :
    (Migration.eq a b = true ↔ (a.name = b.name ∧ a.app_label = b.app_label)) ∧
    (Migration.eq a b = true → Migration.hashStr a = Migration.hashStr b) := by
  constructor
  · simp [Migration.eq]
  · intro h
    simp only [Migration.eq, Bool.and_eq_true, beq_iff_eq] at h
    simp [Migration.hashStr, h.1, h.2]

theorem c10_identity_is_key_witness :
    Migration.eq mig0001x mig0001x' = true ∧
      Migration.hashStr mig0001x = Migration.hashStr mig0001x' := by
  refine ⟨?_, ?_⟩
  · exact (c10_identity_is_key mig0001x mig0001x').1.mpr ⟨rfl, rfl⟩
  · exact (c10_identity_is_key mig0001x mig0001x').2 rfl

/-- C7: `get_migration_by_prefix` trichotomy over the disk-resident
migrations: exactly one name of the component starting with the prefix
returns that migration; two or more raises the ambiguity error naming the
component and prefix; none raises the not-found error. -/
theorem c7_prefix_trichotomy (disk : List (Key × Migration σ))
    (app pfx : String) :
    (disk.countP (fun kv => kv.1.1 == app && startswith kv.1.2 pfx) = 1 →
      ∃ kv, kv ∈ disk ∧ (kv.1.1 = app ∧ startswith kv.1.2 pfx = true) ∧
        get_migration_by_prefix disk app pfx = .ok kv.2) ∧
    (2 ≤ disk.countP (fun kv => kv.1.1 == app && startswith kv.1.2 pfx) →
      get_migration_by_prefix disk app pfx = .error (.ambiguity
        ("There is more than one migration for '" ++ app ++
          "' with the prefix '" ++ pfx ++ "'"))) ∧
    (disk.countP (fun kv => kv.1.1 == app && startswith kv.1.2 pfx) = 0 →
      get_migration_by_prefix disk app pfx = .error (.not_found
        ("There is no migration for '" ++ app ++
          "' with the prefix '" ++ pfx ++ "'"))) := by
  have hcount := List.countP_eq_length_filter
    (fun kv : Key × Migration σ => kv.1.1 == app && startswith kv.1.2 pfx) disk
  refine ⟨?_, ?_, ?_⟩
  · intro h1
    rw [hcount] at h1
    obtain ⟨kv, hkv⟩ := List.length_eq_one.mp h1
    have hmem : kv ∈ disk.filter
        (fun kv : Key × Migration σ => kv.1.1 == app && startswith kv.1.2 pfx) := by
      simp [hkv]
    have hmem' := List.mem_filter.mp hmem
    refine ⟨kv, hmem'.1, ?_, ?_⟩
    · have := hmem'.2
      simp only [Bool.and_eq_true, beq_iff_eq] at this
      exact this
    · simp only [ get_migration_by_prefix, hkv]
      rfl
  · intro h2
    rw [hcount] at h2
    simp only [ get_migration_by_prefix]
    rw [if_pos (by omega)]
  · intro h0
    rw [hcount] at h0
    have hnil := List.length_eq_zero.mp h0
    simp only [ get_migration_by_prefix, hnil]
    rfl

theorem c7_prefix_trichotomy_witness :
    (∃ kv, kv ∈ [(("app", "0001_x"), mig0001x), (("app", "0002_y"), mig0002y)] ∧
      (kv.1.1 = "app" ∧ startswith kv.1.2 "0001" = true) ∧
      get_migration_by_prefix
        [(("app", "0001_x"), mig0001x), (("app", "0002_y"), mig0002y)]
        "app" "0001" = .ok kv.2) ∧
    get_migration_by_prefix
        [(("app", "0001_x"), mig0001x), (("app", "0002_y"), mig0002y)]
        "app" "000" = .error (.ambiguity
          "There is more than one migration for 'app' with the prefix '000'") ∧
    get_migration_by_prefix
        [(("app", "0001_x"), mig0001x), (("app", "0002_y"), mig0002y)]
        "app" "999" = .error (.not_found
          "There is no migration for 'app' with the prefix '999'") := by
  refine ⟨(c7_prefix_trichotomy _ "app" "0001").1 (by decide),
    (c7_prefix_trichotomy _ "app" "000").2.1 (by decide),
    (c7_prefix_trichotomy _ "app" "999").2.2 (by decide)⟩

theorem applyHeapOps_same_object [Inhabited σ] (app : String) (sa : Bool)
    (ed : SchemaEditor) (ops : List (Operation σ)) (h : Heap σ) (sid : Nat)
    (hs : sid < h.length) :
    (applyHeapOps app sa ed false ops h sid).2.1 = sid ∧
      (applyHeapOps app sa ed false ops h sid).1.getD sid default =
        ops.foldl (fun st op => op.state_forwards app st) (h.getD sid default) := by
  induction ops generalizing h with
  | nil => exact ⟨rfl, rfl⟩
  | cons op rest ih =>
    simp only [applyHeapOps, Bool.false_and, Bool.not_false, if_neg, List.foldl_cons]
    have hlen1 : sid < (h ++ [h.getD sid default]).length := by
      simp; omega
    have hget1 : (h ++ [h.getD sid default]).getD sid default = h.getD sid default := by
      simp [List.getD_eq_getElem?_getD, List.getElem?_append, hs]
    have hlen2 : sid <
        ((h ++ [h.getD sid default]).set sid
          (op.state_forwards app ((h ++ [h.getD sid default]).getD sid default))).length := by
      simp; omega
    have hget2 : ((h ++ [h.getD sid default]).set sid
          (op.state_forwards app ((h ++ [h.getD sid default]).getD sid default))).getD
          sid default =
        op.state_forwards app (h.getD sid default) := by
      rw [List.getD_eq_getElem?_getD, List.getElem?_set_self hlen1, hget1]
      rfl
    have := ih _ hlen2
    rw [hget2] at this
    exact this

/-- C9: `Migration.apply` mutates the snapshot it is given in place — the
returned `project_state` is the very same object as the input, and after the
call that object holds the state with every operation's `state_forwards`
applied in declared order (so the caller's input no longer holds the
pre-migration state; callers needing it must clone first, as
`migrate.Command.handle` does with `pre_migrate_state.clone()`). -/
theorem c9_apply_mutates_in_place [Inhabited σ] (m : Migration σ)
    (ed : SchemaEditor) (h : Heap σ) (sid : Nat) (hs : sid < h.length) :
    (m.applyHeap h sid ed false).2.1 = sid ∧
      (m.applyHeap h sid ed false).1.getD sid default =
        m.operations.foldl (fun st op => op.state_forwards m.app_label st)
          (h.getD sid default) := by
  exact applyHeapOps_same_object m.app_label m.atomic ed m.operations h sid hs

theorem unapplyPhase1_error_of_irreversible (app err : String) :
    ∀ (ops : List (Operation σ)) (s : σ), (∃ op ∈ ops, op.reversible = false) →
      ∃ op ∈ ops, op.reversible = false ∧
        unapplyPhase1 app err ops s =
          .error ("Operation " ++ op.op_str ++ " in " ++ err ++ " is not reversible") := by
  intro ops
  induction ops with
  | nil => intro s h; obtain ⟨op, hmem, _⟩ := h; cases hmem
  | cons op rest ih =>
    intro s h
    by_cases hrev : op.reversible = false
    · exact ⟨op, List.mem_cons_self op rest, hrev, by
        simp [unapplyPhase1, hrev]⟩
    · have hrevt : op.reversible = true := by
        cases hop : op.reversible
        · exact absurd hop hrev
        · rfl
      have hrest : ∃ o ∈ rest, o.reversible = false := by
        obtain ⟨o, hmem, ho⟩ := h
        rcases List.mem_cons.mp hmem with heq | hmem'
        · exact absurd (heq ▸ ho) hrev
        · exact ⟨o, hmem', ho⟩
      obtain ⟨o, hmem, ho, heq⟩ := ih (op.state_forwards app s) hrest
      refine ⟨o, List.mem_cons_of_mem op hmem, ho, ?_⟩
      simp [unapplyPhase1, hrevt, heq]

/-- C3: irreversible fail-fast — if any operation of the migration has
`reversible == False`, `Migration.unapply` raises `IrreversibleError`
naming that operation and the migration, with an empty
`database_backwards` trace: the error is raised in phase 1, before any
backward physical action of the call runs. -/
theorem c3_irreversible_fail_fast (m : Migration σ) (ed : SchemaEditor)
    (cs : Bool) (s : σ) (h : ∃ op ∈ m.operations, op.reversible = false) :
    ∃ op ∈ m.operations, op.reversible = false ∧
      m.unapply s ed cs =
        (.error ("Operation " ++ op.op_str ++ " in " ++
          (m.app_label ++ "." ++ m.name) ++ " is not reversible"), []) := by
  obtain ⟨op, hmem, ho, heq⟩ :=
    unapplyPhase1_error_of_irreversible m.app_label
      (m.app_label ++ "." ++ m.name) m.operations s h
  exact ⟨op, hmem, ho, by simp [Migration.unapply, heq]⟩

theorem c3_irreversible_fail_fast_witness :
    ∃ op ∈ (⟨"0002_r", "app", [opIncr, opIrrev], [], [], [], none, true⟩ :
        Migration Nat).operations, op.reversible = false ∧
      (⟨"0002_r", "app", [opIncr, opIrrev], [], [], [], none, true⟩ :
        Migration Nat).unapply 0 ⟨false⟩ false =
        (.error ("Operation " ++ op.op_str ++ " in " ++
          ("app" ++ "." ++ "0002_r") ++ " is not reversible"), []) := by
  exact c3_irreversible_fail_fast _ ⟨false⟩ false 0
    ⟨opIrrev, by
      refine List.mem_cons_of_mem _ ?_
      exact List.mem_singleton.mpr rfl, rfl⟩

theorem enumFrom_map_shift {α β : Type _} (g : Nat × α → β) :
    ∀ (l : List α) (k : Nat),
      (List.enumFrom (k + 1) l).map g =
        (List.enumFrom k l).map (fun p => g (p.1 + 1, p.2)) := by
  intro l
  induction l with
  | nil => intro k; rfl
  | cons a as ih =>
    intro k
    simp only [List.enumFrom, List.map_cons, ih (k + 1)]

theorem enumFromOne_map {α β : Type _} (g : Nat × α → β) (l : List α) :
    (List.enumFrom 1 l).map g = l.enum.map (fun p => g (p.1 + 1, p.2)) := by
  have h := enumFrom_map_shift g l 0
  exact h

theorem unapplyPhase1_ok_of_reversible (app err : String) :
    ∀ (ops : List (Operation σ)) (s : σ), (∀ op ∈ ops, op.reversible = true) →
      unapplyPhase1 app err ops s =
        .ok ((ops.enum.map fun p =>
          (p.2, foldFwd app (ops.take p.1) s, foldFwd app (ops.take (p.1 + 1)) s)).reverse) := by
  intro ops
  induction ops with
  | nil => intro s _; rfl
  | cons op rest ih =>
    intro s h
    have hrev : op.reversible = true := h op (List.mem_cons_self op rest)
    have hrest : ∀ o ∈ rest, o.reversible = true := fun o ho =>
      h o (List.mem_cons_of_mem op ho)
    simp only [unapplyPhase1, hrev, Bool.not_true, Bool.false_eq_true, if_false]
    rw [ih (op.state_forwards app s) hrest]
    simp only [List.enum_cons, List.map_cons, List.reverse_cons]
    rw [enumFromOne_map]
    refine congrArg Except.ok ?_
    refine congrArg₂ (fun a b => a ++ b) ?_ ?_
    · refine congrArg List.reverse ?_
      apply List.map_congr_left
      intro p _
      simp [foldFwd, List.take_succ_cons]
    · simp [foldFwd]

theorem unapplyPhase2_map (sa : Bool) (ed : SchemaEditor) :
    ∀ l : List (Operation σ × σ × σ),
      unapplyPhase2 sa ed false l =
        l.map fun t =>
          ⟨t.1.op_str, !ed.atomic_migration && atomic_operation t.1.atomic sa,
            t.2.2, t.2.1⟩ := by
  intro l
  induction l with
  | nil => rfl
  | cons t rest ih =>
    obtain ⟨op, toS, fromS⟩ := t
    simp only [unapplyPhase2, Bool.false_and, Bool.false_eq_true, if_false,
      List.map_cons]
    rw [ih]

/-- C4: two-phase unapply — on an all-reversible migration,
`Migration.unapply` replays the operations forward purely, recording per
operation the states before and after it, then issues exactly one
`database_backwards` call per operation, in reverse declared order, with
`from_state` the operation's recorded post-state and `to_state` its
recorded pre-state, and returns the pre-migration snapshot unchanged. -/
theorem c4_two_phase_unapply (m : Migration σ) (ed : SchemaEditor) (s : σ)
    (h : ∀ op ∈ m.operations, op.reversible = true) :
    m.unapply s ed false =
      (.ok s,
        (m.operations.enum.map fun p =>
          (⟨p.2.op_str, !ed.atomic_migration && atomic_operation p.2.atomic m.atomic,
            foldFwd m.app_label (m.operations.take (p.1 + 1)) s,
            foldFwd m.app_label (m.operations.take p.1) s⟩ : DBCall σ)).reverse) := by
  have hp1 := unapplyPhase1_ok_of_reversible m.app_label
    (m.app_label ++ "." ++ m.name) m.operations s h
  simp only [Migration.unapply, hp1]
  rw [unapplyPhase2_map, List.map_reverse, List.map_map]
  rfl

theorem c4_two_phase_unapply_witness :
    (⟨"0003_t", "app", [opIncr, opDouble], [], [], [], none, true⟩ :
        Migration Nat).unapply 3 ⟨false⟩ false =
      (.ok 3,
        ((⟨"0003_t", "app", [opIncr, opDouble], [], [], [], none, true⟩ :
            Migration Nat).operations.enum.map fun p =>
          (⟨p.2.op_str, !(SchemaEditor.mk false).atomic_migration &&
              atomic_operation p.2.atomic true,
            foldFwd "app" ([opIncr, opDouble].take (p.1 + 1)) 3,
            foldFwd "app" ([opIncr, opDouble].take p.1) 3⟩ : DBCall Nat)).reverse) := by
  exact c4_two_phase_unapply _ ⟨false⟩ 3 (by
    intro op hop
    rcases List.mem_cons.mp hop with heq | hop2
    · rw [heq]; rfl
    · rw [List.mem_singleton.mp hop2]; rfl)

theorem c9_apply_mutates_in_place_witness :
    ((⟨"0001_i", "app", [opIncr, opIncr], [], [], [], none, true⟩ :
        Migration Nat).applyHeap [5] 0 ⟨false⟩ false).2.1 = 0 ∧
      ((⟨"0001_i", "app", [opIncr, opIncr], [], [], [], none, true⟩ :
        Migration Nat).applyHeap [5] 0 ⟨false⟩ false).1.getD 0 default =
        [opIncr, opIncr].foldl (fun st op => op.state_forwards "app" st) 5 := by
  exact c9_apply_mutates_in_place _ ⟨false⟩ [5] 0 (by decide)

theorem fragTruthy_false_iff (op : Operation σ) :
    fragTruthy op = false ↔ fragOpt op = none := by
  cases h : op.migration_name_fragment with
  | none => simp [fragTruthy, fragOpt, h]
  | some s => cases he : s.isEmpty <;> simp [fragTruthy, fragOpt, h, he]

theorem filterMap_length_lt {α β : Type _} (F : α → Option β) :
    ∀ l : List α, (∃ a ∈ l, F a = none) → (l.filterMap F).length < l.length := by
  intro l
  induction l with
  | nil => rintro ⟨a, ha, _⟩; cases ha
  | cons a l ih =>
    rintro ⟨b, hb, hFb⟩
    cases hF : F a with
    | none =>
      have hle := List.length_filterMap_le F l
      simp only [List.filterMap_cons, hF, List.length_cons]
      omega
    | some c =>
      rcases List.mem_cons.mp hb with heq | hb'
      · subst heq; rw [hF] at hFb; cases hFb
      · have := ih ⟨b, hb', hFb⟩
        simp only [List.filterMap_cons, hF, List.length_cons]
        omega

theorem joinFrom_cons (name f : String) (l : List String) :
    joinFrom name (f :: l) = joinFrom (name ++ "_" ++ f) l := rfl

theorem suggestJoin_eq_joinFrom :
    ∀ (fs : List String) (name : String),
      (∀ k, 1 ≤ k → k ≤ fs.length → (joinFrom name (fs.take k)).length ≤ 52) →
      suggestJoin name fs = joinFrom name fs := by
  intro fs
  induction fs with
  | nil => intro name _; rfl
  | cons f fs' ih =>
    intro name h
    have h1 : (name ++ "_" ++ f).length ≤ 52 := by
      have := h 1 (by omega) (by simp)
      simpa [joinFrom] using this
    simp only [suggestJoin]
    rw [if_neg (by omega)]
    rw [ih (name ++ "_" ++ f) ?_]
    · rfl
    · intro k hk1 hk
      have := h (k + 1) (by omega) (by simp; omega)
      simpa [joinFrom, List.take_succ_cons] using this

theorem suggestJoin_and_more :
    ∀ (fs : List String) (name : String) (j : Nat), j < fs.length →
      (∀ k, 1 ≤ k → k ≤ j → (joinFrom name (fs.take k)).length ≤ 52) →
      (joinFrom name (fs.take (j + 1))).length > 52 →
      suggestJoin name fs = joinFrom name (fs.take j) ++ "_and_more" := by
  intro fs
  induction fs with
  | nil => intro name j hj _ _; exact absurd hj (Nat.not_lt_zero j)
  | cons f fs' ih =>
    intro name j hj hpre hviol
    cases j with
    | zero =>
      have hv : (name ++ "_" ++ f).length > 52 := by
        simpa [joinFrom, List.take_succ_cons] using hviol
      simp only [suggestJoin]
      rw [if_pos hv]
      simp [joinFrom]
    | succ j' =>
      have h1 : (name ++ "_" ++ f).length ≤ 52 := by
        have := hpre 1 (by omega) (by omega)
        simpa [joinFrom, List.take_succ_cons] using this
      have hj' : j' < fs'.length := by simpa using Nat.lt_of_succ_lt_succ hj
      have hpre' : ∀ k, 1 ≤ k → k ≤ j' →
          (joinFrom (name ++ "_" ++ f) (fs'.take k)).length ≤ 52 := by
        intro k hk1 hk
        have := hpre (k + 1) (by omega) (by omega)
        simpa [joinFrom, List.take_succ_cons] using this
      have hviol' : (joinFrom (name ++ "_" ++ f) (fs'.take (j' + 1))).length > 52 := by
        simpa [joinFrom, List.take_succ_cons] using hviol
      simp only [suggestJoin]
      rw [if_neg (by omega)]
      rw [ih (name ++ "_" ++ f) j' hj' hpre' hviol']
      simp [joinFrom, List.take_succ_cons]

/-- C8 (amended): `suggest_name` returns `"initial"` when the migration is
marked initial; returns the timestamp fallback when the operations list is
empty or some operation lacks a truthy name fragment; otherwise starts from
the first sanitized fragment (which is never length-checked itself),
appends each subsequent one while the composed name stays within 52
characters, and at the first fragment whose addition would exceed 52
characters appends `"_and_more"` to the name built so far and stops.
The join conditions quantify only over the composed names after at least
one appended fragment (`1 ≤ k`), exactly the names the code checks. -/
theorem c8_suggest_name_amended (m : Migration σ) (ts : String) :
    (truthy m.initial = true → m.suggest_name ts = "initial") ∧
    (truthy m.initial = false →
      (m.operations = [] ∨ ∃ op ∈ m.operations, fragTruthy op = false) →
      m.suggest_name ts = "auto_" ++ ts) ∧
    (truthy m.initial = false → ∀ f fs, migFragments m = f :: fs →
      (f :: fs).length = m.operations.length →
      ((∀ k, 1 ≤ k → k ≤ fs.length → (joinFrom f (fs.take k)).length ≤ 52) →
        m.suggest_name ts = joinFrom f fs) ∧
      (∀ j, j < fs.length →
        (∀ k, 1 ≤ k → k ≤ j → (joinFrom f (fs.take k)).length ≤ 52) →
        (joinFrom f (fs.take (j + 1))).length > 52 →
        m.suggest_name ts = joinFrom f (fs.take j) ++ "_and_more")) := by
  refine ⟨?_, ?_, ?_⟩
  · intro h
    simp [Migration.suggest_name, h]
  · intro h hcase
    rcases hcase with hops | ⟨op, hmem, hfr⟩
    · simp [Migration.suggest_name, h, migFragments, hops]
    · have hlt : (migFragments m).length < m.operations.length :=
        filterMap_length_lt fragOpt m.operations
          ⟨op, hmem, (fragTruthy_false_iff op).mp hfr⟩
      cases hmf : migFragments m with
      | nil => simp [Migration.suggest_name, h, hmf]
      | cons f fs =>
        rw [hmf] at hlt
        have hne : (f :: fs).length ≠ m.operations.length := by omega
        simp [Migration.suggest_name, h, hmf, hne]
        intro hcontra
        have hne' := hne
        simp only [List.length_cons] at hne'
        exact absurd hcontra hne'
  · intro h f fs hmf hlen
    have hsn : m.suggest_name ts = suggestJoin f fs := by
      simp only [Migration.suggest_name, h, Bool.false_eq_true, if_false, hmf]
      rw [if_neg (fun hne => hne hlen)]
    refine ⟨?_, ?_⟩
    · intro hall
      rw [hsn]
      exact suggestJoin_eq_joinFrom fs f hall
    · intro j hj hpre hviol
      rw [hsn]
      exact suggestJoin_and_more fs f j hj hpre hviol

/-- C8 counterexample: a migration with an empty operations list and not
marked initial.  No operation lacks a name fragment and the fragment count
equals the operation count (both are zero), so the claim's join branch
applies and predicts the joined name (the empty string); the code instead
returns the timestamp fallback `"auto_" + timestamp`. -/
theorem c8_counterexample :
    Migration.suggest_name migNoOps "20250101_0000" = "auto_" ++ "20250101_0000" ∧
      (migFragments migNoOps).length = migNoOps.operations.length ∧
      truthy migNoOps.initial = false :=
  ⟨rfl, rfl, rfl⟩

theorem c8_suggest_name_amended_witness :
    (⟨"0005_f", "app", [opFragAlpha, opFragBeta], [], [], [], none, true⟩ :
      Migration Unit).suggest_name "20250101_0000" = joinFrom "alpha" ["beta"] ∧
    (⟨"0006_g", "app", [opNoFrag], [], [], [], none, true⟩ :
      Migration Unit).suggest_name "20250101_0000" = "auto_" ++ "20250101_0000" ∧
    (⟨"0007_h", "app", [opFragLong], [], [], [], none, true⟩ :
      Migration Unit).suggest_name "20250101_0000" = joinFrom longFrag [] ∧
    (⟨"0008_i", "app", [opFragLong, opFragBeta], [], [], [], none, true⟩ :
      Migration Unit).suggest_name "20250101_0000" =
      joinFrom longFrag (["beta"].take 0) ++ "_and_more" := by
  refine ⟨?_, ?_, ?_, ?_⟩
  · exact ((c8_suggest_name_amended
      (⟨"0005_f", "app", [opFragAlpha, opFragBeta], [], [], [], none, true⟩ :
        Migration Unit) "20250101_0000").2.2 rfl "alpha" ["beta"]
      rfl rfl).1 (by
        intro k h1 h2
        rcases Nat.le_one_iff_eq_zero_or_eq_one.mp h2 with rfl | rfl
        · exact absurd h1 (by decide)
        · decide)
  · exact (c8_suggest_name_amended
      (⟨"0006_g", "app", [opNoFrag], [], [], [], none, true⟩ :
        Migration Unit) "20250101_0000").2.1 rfl
      (Or.inr ⟨opNoFrag, List.mem_singleton.mpr rfl, rfl⟩)
  · exact ((c8_suggest_name_amended
      (⟨"0007_h", "app", [opFragLong], [], [], [], none, true⟩ :
        Migration Unit) "20250101_0000").2.2 rfl longFrag []
      rfl rfl).1 (by
        intro k h1 h2
        exact absurd (Nat.le_trans h1 h2) (by decide))
  · exact ((c8_suggest_name_amended
      (⟨"0008_i", "app", [opFragLong, opFragBeta], [], [], [], none, true⟩ :
        Migration Unit) "20250101_0000").2.2 rfl longFrag ["beta"]
      rfl rfl).2 0 (by decide)
      (by
        intro k h1 h2
        exact absurd (Nat.le_trans h1 h2) (by decide))
      (by decide)

theorem firstUnsatisfiedParent_spec (repl : List (Key × List Key))
    (applied : List Key) :
    ∀ ps : List Key,
      (∃ q, firstUnsatisfiedParent repl applied ps = some q) ↔
        ∃ p ∈ ps, p ∉ applied ∧
          ¬(∃ rl, repl.lookup p = some rl ∧ ∀ x ∈ rl, x ∈ applied) := by
  intro ps
  induction ps with
  | nil => simp [firstUnsatisfiedParent]
  | cons p ps' ih =>
    by_cases hp : p ∈ applied
    · rw [show firstUnsatisfiedParent repl applied (p :: ps') =
          firstUnsatisfiedParent repl applied ps' from by
        simp [firstUnsatisfiedParent, hp]]
      rw [ih]
      constructor
      · rintro ⟨q, hq, hbad⟩
        exact ⟨q, List.mem_cons_of_mem _ hq, hbad⟩
      · rintro ⟨q, hq, hnap, hnr⟩
        rcases List.mem_cons.mp hq with rfl | hq'
        · exact absurd hp hnap
        · exact ⟨q, hq', hnap, hnr⟩
    · cases hl : repl.lookup p with
      | some rl =>
        by_cases hall : ∀ x ∈ rl, x ∈ applied
        · have hallb : (rl.all fun x => decide (x ∈ applied)) = true := by
            rw [List.all_eq_true]
            intro x hx
            exact decide_eq_true (hall x hx)
          rw [show firstUnsatisfiedParent repl applied (p :: ps') =
              firstUnsatisfiedParent repl applied ps' from by
            simp [firstUnsatisfiedParent, hp, hl, hallb]]
          rw [ih]
          constructor
          · rintro ⟨q, hq, h1, h2⟩
            exact ⟨q, List.mem_cons_of_mem _ hq, h1, h2⟩
          · rintro ⟨q, hq, h1, h2⟩
            rcases List.mem_cons.mp hq with rfl | hq'
            · exact absurd ⟨rl, hl, hall⟩ h2
            · exact ⟨q, hq', h1, h2⟩
        · have hallb : (rl.all fun x => decide (x ∈ applied)) = false := by
            cases hab : rl.all fun x => decide (x ∈ applied)
            · rfl
            · exfalso
              apply hall
              intro x hx
              have := List.all_eq_true.mp hab x hx
              exact of_decide_eq_true this
          rw [show firstUnsatisfiedParent repl applied (p :: ps') = some p from by
            simp [firstUnsatisfiedParent, hp, hl, hallb]]
          constructor
          · rintro ⟨q, _⟩
            refine ⟨p, List.mem_cons_self p ps', hp, ?_⟩
            rintro ⟨rl', hl', hall'⟩
            rw [hl] at hl'
            have hrr := Option.some.inj hl'
            subst hrr
            exact hall hall'
          · intro _
            exact ⟨p, rfl⟩
      | none =>
        rw [show firstUnsatisfiedParent repl applied (p :: ps') = some p from by
          simp [firstUnsatisfiedParent, hp, hl]]
        constructor
        · rintro ⟨q, _⟩
          refine ⟨p, List.mem_cons_self p ps', hp, ?_⟩
          rintro ⟨rl', hl', _⟩
          rw [hl] at hl'
          exact Option.noConfusion hl'
        · intro _
          exact ⟨p, rfl⟩

theorem cchAux_spec (g : MigrationGraph) (repl : List (Key × List Key))
    (applied : List Key) :
    ∀ l : List Key,
      (∃ e, cchAux g repl applied l = .error e) ↔
        ∃ m ∈ l, m ∈ g.nodes ∧ ∃ p ∈ parentsOf g m, p ∉ applied ∧
          ¬(∃ rl, repl.lookup p = some rl ∧ ∀ x ∈ rl, x ∈ applied) := by
  intro l
  induction l with
  | nil => simp [cchAux]
  | cons m rest ih =>
    by_cases hm : m ∈ g.nodes
    · cases hF : firstUnsatisfiedParent repl applied (parentsOf g m) with
      | some p =>
        rw [show cchAux g repl applied (m :: rest) = .error (m, p) from by
          simp [cchAux, hm, hF]]
        constructor
        · intro _
          have hbad := (firstUnsatisfiedParent_spec repl applied
            (parentsOf g m)).mp ⟨p, hF⟩
          exact ⟨m, List.mem_cons_self m rest, hm, hbad⟩
        · intro _
          exact ⟨(m, p), rfl⟩
      | none =>
        rw [show cchAux g repl applied (m :: rest) = cchAux g repl applied rest from by
          simp [cchAux, hm, hF]]
        rw [ih]
        constructor
        · rintro ⟨m', hm', h⟩
          exact ⟨m', List.mem_cons_of_mem _ hm', h⟩
        · rintro ⟨m', hm', hnode, hex⟩
          rcases List.mem_cons.mp hm' with rfl | hm''
          · exfalso
            obtain ⟨q, hq⟩ := (firstUnsatisfiedParent_spec repl applied
              (parentsOf g m')).mpr hex
            rw [hF] at hq
            exact Option.noConfusion hq
          · exact ⟨m', hm'', hnode, hex⟩
    · rw [show cchAux g repl applied (m :: rest) = cchAux g repl applied rest from by
        simp [cchAux, hm]]
      rw [ih]
      constructor
      · rintro ⟨m', hm', h⟩
        exact ⟨m', List.mem_cons_of_mem _ hm', h⟩
      · rintro ⟨m', hm', hnode, hex⟩
        rcases List.mem_cons.mp hm' with rfl | hm''
        · exact absurd hnode hm
        · exact ⟨m', hm'', hnode, hex⟩

/-- C5: `check_consistent_history` raises `InconsistentMigrationHistory` if
and only if some key of the applied set that exists in the graph has a
graph-parent outside the applied set which is not a squash (an entry of
`self.replacements`) with its whole `replaces` list contained in the
applied set.  Applied keys absent from the graph are skipped, and a ledger
in which every in-graph applied key has all parents applied (or covered by
such a fully-applied squash) passes without error. -/
theorem c5_inconsistent_history_iff (g : MigrationGraph)
    (replacements : List (Key × List Key)) (applied : List Key) :
    (∃ e, check_consistent_history g replacements applied = .error e) ↔
      ∃ m ∈ applied, m ∈ g.nodes ∧ ∃ p ∈ parentsOf g m, p ∉ applied ∧
        ¬(∃ rl, replacements.lookup p = some rl ∧ ∀ x ∈ rl, x ∈ applied) :=
  cchAux_spec g replacements applied applied

theorem c5_inconsistent_history_iff_witness :
    ∃ e, check_consistent_history
        ⟨[("app", "0001"), ("app", "0002")], [(("app", "0002"), ("app", "0001"))]⟩
        [] [("app", "0002")] = .error e := by
  refine (c5_inconsistent_history_iff
      ⟨[("app", "0001"), ("app", "0002")], [(("app", "0002"), ("app", "0001"))]⟩
      [] [("app", "0002")]).mpr
    ⟨("app", "0002"), by decide, by decide, ("app", "0001"), by decide, by decide, ?_⟩
  rintro ⟨rl, hl, _⟩
  exact Option.noConfusion hl

theorem statuses_all_iff (R applied : List Key) :
    ((R.map fun t => decide (t ∈ applied)).all id = true) ↔ ∀ a ∈ R, a ∈ applied := by
  simp [List.all_map, Function.comp]

theorem statuses_any_iff (R applied : List Key) :
    ((R.map fun t => decide (t ∈ applied)).any id = true) ↔ ∃ a ∈ R, a ∈ applied := by
  simp [List.any_map, Function.comp]

theorem processReplacement_nodes_pres (st : LoaderState) (e : Key × List Key)
    (x : Key) (hx1 : x ≠ e.1) (hx2 : x ∉ e.2) :
    (x ∈ (processReplacement st e).graph.nodes ↔ x ∈ st.graph.nodes) := by
  simp only [processReplacement]
  split
  · simp [remove_replaced_nodes, List.mem_filter, hx2]
  · simp [remove_replacement_node, List.mem_filter, hx1]

theorem processReplacement_applied_pres (st : LoaderState) (e : Key × List Key)
    (x : Key) (hx : x ≠ e.1) :
    (x ∈ (processReplacement st e).applied_migrations ↔
      x ∈ st.applied_migrations) := by
  simp only [processReplacement]
  split
  · split
    · exact Iff.rfl
    · simp [hx]
  · simp [List.mem_filter, hx]

theorem processReplacements_nodes_pres (x : Key) :
    ∀ (entries : List (Key × List Key)) (st : LoaderState),
      (∀ en ∈ entries, x ≠ en.1 ∧ x ∉ en.2) →
      (x ∈ (processReplacements entries st).graph.nodes ↔ x ∈ st.graph.nodes) := by
  intro entries
  induction entries with
  | nil => intro st _; exact Iff.rfl
  | cons en rest ih =>
    intro st h
    have h1 := h en (List.mem_cons_self en rest)
    rw [show processReplacements (en :: rest) st =
      processReplacements rest (processReplacement st en) from rfl]
    rw [ih _ fun e he => h e (List.mem_cons_of_mem _ he)]
    exact processReplacement_nodes_pres st en x h1.1 h1.2

theorem processReplacements_applied_pres (x : Key) :
    ∀ (entries : List (Key × List Key)) (st : LoaderState),
      (∀ en ∈ entries, x ≠ en.1) →
      (x ∈ (processReplacements entries st).applied_migrations ↔
        x ∈ st.applied_migrations) := by
  intro entries
  induction entries with
  | nil => intro st _; exact Iff.rfl
  | cons en rest ih =>
    intro st h
    rw [show processReplacements (en :: rest) st =
      processReplacements rest (processReplacement st en) from rfl]
    rw [ih _ fun e he => h e (List.mem_cons_of_mem _ he)]
    exact processReplacement_applied_pres st en x (h en (List.mem_cons_self en rest))

theorem processReplacement_self_effect (st : LoaderState) (S : Key)
    (R : List Key) (hSR : S ∉ R) :
    (S ∈ (processReplacement st (S, R)).applied_migrations ↔
      ∀ a ∈ R, a ∈ st.applied_migrations) ∧
    (((∀ a ∈ R, a ∈ st.applied_migrations) ∨
        (∀ a ∈ R, a ∉ st.applied_migrations)) →
      (S ∈ st.graph.nodes → S ∈ (processReplacement st (S, R)).graph.nodes) ∧
      (∀ a ∈ R, a ∉ (processReplacement st (S, R)).graph.nodes)) ∧
    (((∃ a ∈ R, a ∈ st.applied_migrations) ∧
        (∃ a ∈ R, a ∉ st.applied_migrations)) →
      (S ∉ (processReplacement st (S, R)).graph.nodes) ∧
      (∀ a ∈ R, a ∈ st.graph.nodes →
        a ∈ (processReplacement st (S, R)).graph.nodes)) := by
  refine ⟨?_, ?_, ?_⟩
  · by_cases hAll : ((R.map fun t => decide (t ∈ st.applied_migrations)).all id) = true
    · have hall := (statuses_all_iff R st.applied_migrations).mp hAll
      simp only [processReplacement, hAll, if_true]
      constructor
      · intro _; exact hall
      · intro _
        split
        · next hin => exact of_decide_eq_true hin
        · exact List.mem_append_right _ (List.mem_singleton.mpr rfl)
    · have hnall := fun hc => hAll ((statuses_all_iff R st.applied_migrations).mpr hc)
      simp only [processReplacement, hAll, if_false]
      constructor
      · intro hmem
        exact absurd hmem (by simp [List.mem_filter])
      · intro hc
        exact absurd hc hnall
  · intro hc
    have hcond : (((R.map fun t => decide (t ∈ st.applied_migrations)).all id) ||
        !((R.map fun t => decide (t ∈ st.applied_migrations)).any id)) = true := by
      rcases hc with hall | hnone
      · rw [(statuses_all_iff R st.applied_migrations).mpr hall]
        rfl
      · have : ((R.map fun t => decide (t ∈ st.applied_migrations)).any id) = false := by
          cases hany : (R.map fun t => decide (t ∈ st.applied_migrations)).any id
          · rfl
          · obtain ⟨a, ha, hmem⟩ := (statuses_any_iff R st.applied_migrations).mp hany
            exact absurd hmem (hnone a ha)
        rw [this]
        simp
    simp only [processReplacement, hcond, if_true]
    constructor
    · intro hS
      simp [remove_replaced_nodes, List.mem_filter, hSR, hS]
    · intro a ha
      simp [remove_replaced_nodes, List.mem_filter, ha]
  · rintro ⟨hex, hnex⟩
    have hcond : (((R.map fun t => decide (t ∈ st.applied_migrations)).all id) ||
        !((R.map fun t => decide (t ∈ st.applied_migrations)).any id)) = false := by
      have h1 : ((R.map fun t => decide (t ∈ st.applied_migrations)).all id) = false := by
        cases hall : (R.map fun t => decide (t ∈ st.applied_migrations)).all id
        · rfl
        · obtain ⟨a, ha, hna⟩ := hnex
          exact absurd ((statuses_all_iff R st.applied_migrations).mp hall a ha) hna
      have h2 : ((R.map fun t => decide (t ∈ st.applied_migrations)).any id) = true :=
        (statuses_any_iff R st.applied_migrations).mpr hex
      rw [h1, h2]
      rfl
    simp only [processReplacement, hcond, if_false]
    constructor
    · simp [remove_replacement_node, List.mem_filter]
    · intro a ha hmem
      have haS : a ≠ S := fun hc => hSR (hc ▸ ha)
      simp [remove_replacement_node, List.mem_filter, hmem, haS]

theorem mem_insertSorted (a x : Key) :
    ∀ l : List Key, x ∈ insertSorted a l ↔ x = a ∨ x ∈ l := by
  intro l
  induction l with
  | nil => simp [insertSorted]
  | cons b bs ih =>
    by_cases hle : keyLE a b
    · simp [insertSorted, hle]
    · simp only [insertSorted, hle, if_false, Bool.false_eq_true, List.mem_cons, ih]
      tauto

theorem mem_sortKeys (x : Key) : ∀ l : List Key, x ∈ sortKeys l ↔ x ∈ l := by
  intro l
  induction l with
  | nil => simp [sortKeys]
  | cons a as ih =>
    simp [sortKeys, mem_insertSorted, ih]

theorem mem_root_nodes_fst (g : MigrationGraph) (app : String) (k : Key)
    (h : k ∈ root_nodes g app) : k.1 = app := by
  unfold root_nodes at h
  rw [mem_sortKeys] at h
  have := (List.mem_filter.mp h).2
  simp only [Bool.and_eq_true, beq_iff_eq] at this
  exact this.1

theorem mem_leaf_nodes_fst (g : MigrationGraph) (app : String) (k : Key)
    (h : k ∈ leaf_nodes g app) : k.1 = app := by
  unfold leaf_nodes at h
  rw [mem_sortKeys] at h
  have := (List.mem_filter.mp h).2
  simp only [Bool.and_eq_true, beq_iff_eq] at this
  exact this.1

theorem mem_of_head? {α : Type _} {l : List α} {a : α} (h : l.head? = some a) :
    a ∈ l := by
  cases l with
  | nil => cases h
  | cons x xs =>
    have := Option.some.inj h
    rw [← this]
    exact List.mem_cons_self x xs

theorem check_key_fst (env : LoaderEnv) (g : MigrationGraph) (k : Key)
    (cur : String) (p : Key) (h : check_key env g k cur = .ok (some p)) :
    p.1 = k.1 := by
  unfold check_key at h
  split at h
  · have := Option.some.inj (Except.ok.inj h)
    rw [← this]
  · split at h
    · exact Option.noConfusion (Except.ok.inj h)
    · split at h
      · exact Option.noConfusion (Except.ok.inj h)
      · split at h
        · split at h
          next k' hhead =>
            have hp : p = k' := (Option.some.inj (Except.ok.inj h)).symm
            subst hp
            by_cases hfl : (k.2 == "__first__") = true
            · rw [if_pos hfl] at hhead
              exact mem_root_nodes_fst g k.1 p (mem_of_head? hhead)
            · rw [if_neg hfl] at hhead
              exact mem_leaf_nodes_fst g k.1 p (mem_of_head? hhead)
          next =>
            split at h
            · exact Option.noConfusion (Except.ok.inj h)
            · exact Except.noConfusion h
        · exact Except.noConfusion h

theorem extDepEdges_mem (env : LoaderEnv) (g : MigrationGraph) (key : Key) :
    ∀ (deps : List Key) (es : List (Key × Key)),
      extDepEdges env g key deps = .ok es →
      ∀ e ∈ es, e.1 = key ∧ e.2.1 ≠ key.1 := by
  intro deps
  induction deps with
  | nil =>
    intro es h e he
    simp only [extDepEdges] at h
    injection h with h'
    subst h'
    cases he
  | cons parent rest ih =>
    intro es h e he
    simp only [extDepEdges] at h
    split at h
    · exact ih _ h e he
    next hsame =>
      split at h
      next => exact Except.noConfusion h
      next => exact ih _ h e he
      next p hck =>
        split at h
        next => exact Except.noConfusion h
        next es' hrest =>
          injection h with h'
          subst h'
          rcases List.mem_cons.mp he with rfl | he'
          · refine ⟨rfl, ?_⟩
            have hp := check_key_fst env g parent key.1 p hck
            intro hcontra
            apply hsame
            have : key.1 = parent.1 := by
              rw [← hp]
              exact hcontra.symm
            simp [this]
          · exact ih _ hrest e he'

theorem runBeforeEdges_mem (env : LoaderEnv) (g : MigrationGraph) (key : Key) :
    ∀ (rb : List Key) (es : List (Key × Key)),
      runBeforeEdges env g key rb = .ok es → ∀ e ∈ es, e.2 = key := by
  intro rb
  induction rb with
  | nil =>
    intro es h e he
    simp only [runBeforeEdges] at h
    injection h with h'
    subst h'
    cases he
  | cons child rest ih =>
    intro es h e he
    simp only [runBeforeEdges] at h
    split at h
    next => exact Except.noConfusion h
    next => exact ih _ h e he
    next c hck =>
      split at h
      next => exact Except.noConfusion h
      next es' hrest =>
        injection h with h'
        subst h'
        rcases List.mem_cons.mp he with rfl | he'
        · rfl
        · exact ih _ hrest e he'

theorem add_internal_dependencies_mem (key : Key) (deps : List Key) :
    ∀ e ∈ add_internal_dependencies key deps,
      e.1 = key ∧ e.2.1 = key.1 ∧ e.2.2 ≠ "__first__" := by
  intro e he
  obtain ⟨parent, _, hf⟩ := List.mem_filterMap.mp he
  by_cases hc : (parent.1 == key.1 && !(parent.2 == "__first__")) = true
  · rw [if_pos hc] at hf
    have he' := Option.some.inj hf
    rw [← he']
    simp only [Bool.and_eq_true, beq_iff_eq, Bool.not_eq_true', beq_eq_false_iff_ne] at hc
    exact ⟨rfl, hc.1, hc.2⟩
  · rw [if_neg hc] at hf
    exact Option.noConfusion hf

/-- C6 counterexample: migration `a.0002` declares the same-component
sentinel dependency `("a", "__latest__")`.  The claim says no edge is added
for it, but `add_internal_dependencies` (whose guard only excludes
`__first__`) adds the edge `(("a","0002"), ("a","__latest__"))`; the
external-dependency pass adds nothing (it skips all same-app targets). -/
theorem c6_counterexample :
    add_internal_dependencies ("a", "0002") [("a", "__latest__")] =
      [(("a", "0002"), ("a", "__latest__"))] ∧
    add_external_dependencies ⟨[], ["a"], false⟩
      ⟨[("a", "0001"), ("a", "0002")], []⟩
      ("a", "0002") [("a", "__latest__")] [] = .ok [] :=
  ⟨rfl, rfl⟩

/-- C6 (amended): a same-component dependency on the `__first__` sentinel
is ignored during dependency wiring — no edge with parent
`(own_app, "__first__")` is ever added by the internal or external wiring
of a migration whose own name is not `"__first__"` — but a same-component
dependency on the `__latest__` sentinel is NOT ignored: internal wiring
adds an edge pointing at the literal key `(own_app, "__latest__")`. -/
theorem c6_own_app_sentinels_amended (env : LoaderEnv) (g : MigrationGraph)
    (key : Key) (deps rb : List Key) (es : List (Key × Key))
    (hname : key.2 ≠ "__first__")
    (hok : add_external_dependencies env g key deps rb = .ok es) :
    (∀ e ∈ add_internal_dependencies key deps ++ es,
      e.2 ≠ (key.1, "__first__")) ∧
    (∀ d ∈ deps, d = (key.1, "__latest__") →
      (key, d) ∈ add_internal_dependencies key deps) := by
  have hsplit : ∃ es1 es2, extDepEdges env g key deps = .ok es1 ∧
      runBeforeEdges env g key rb = .ok es2 ∧ es = es1 ++ es2 := by
    simp only [add_external_dependencies] at hok
    split at hok
    · exact Except.noConfusion hok
    next es1 h1 =>
      split at hok
      · exact Except.noConfusion hok
      next es2 h2 =>
        injection hok with h'
        exact ⟨es1, es2, h1, h2, h'.symm⟩
  obtain ⟨es1, es2, h1, h2, rfl⟩ := hsplit
  constructor
  · intro e he
    rcases List.mem_append.mp he with hin | hex
    · have := add_internal_dependencies_mem key deps e hin
      intro hcontra
      rw [hcontra] at this
      exact this.2.2 rfl
    · rcases List.mem_append.mp hex with h1m | h2m
      · have := extDepEdges_mem env g key deps es1 h1 e h1m
        intro hcontra
        rw [hcontra] at this
        exact this.2 rfl
      · have := runBeforeEdges_mem env g key rb es2 h2 e h2m
        intro hcontra
        rw [hcontra] at this
        exact hname (by rw [← this])
  · intro d hd hdeq
    apply List.mem_filterMap.mpr
    refine ⟨d, hd, ?_⟩
    rw [hdeq]
    simp

theorem c6_own_app_sentinels_amended_witness :
    ((("a", "0002") : Key), (("a", "__latest__") : Key)) ∈
      add_internal_dependencies ("a", "0002")
        [("a", "__first__"), ("a", "__latest__"), ("c", "0001")] := by
  exact (c6_own_app_sentinels_amended ⟨["b"], ["c"], false⟩
      ⟨[("a", "0001"), ("a", "0002")], []⟩ ("a", "0002")
      [("a", "__first__"), ("a", "__latest__"), ("c", "0001")] []
      [(("a", "0002"), ("c", "0001"))] (by decide) rfl).2
    ("a", "__latest__") (by decide) rfl

/-- C1 counterexample: two squash migrations where the second replaces the
first (`sqS1` replaces `[sqA]`, `sqS2` replaces `[sqS1]`), with an empty
applied set.  For `S = sqS1` none of its replaces are applied, so the claim
predicts the built graph contains `sqS1`; but the replacement loop, after
folding `sqS1` (removing `sqA`), also folds `sqS2` and removes `sqS1`: the
resulting node list is exactly `[sqS2]`, and the applied view is empty. -/
theorem c1_counterexample :
    (processReplacements [(sqS1, [sqA]), (sqS2, [sqS1])]
        ⟨⟨[sqA, sqS1, sqS2], []⟩, []⟩).graph.nodes = [sqS2] ∧
      (processReplacements [(sqS1, [sqA]), (sqS2, [sqS1])]
        ⟨⟨[sqA, sqS1, sqS2], []⟩, []⟩).applied_migrations = [] := by
  exact ⟨rfl, rfl⟩

/-- C1 (amended): the squash fold decision of `build_graph`, for a squash
`S` with replaces list `R`, holds under non-interference provisos: `S` does
not replace itself, `S` and all keys of `R` are nodes of the graph before
replacement processing, and no other replacement entry has `S` or a key of
`R` as its key or in its replaces list.  Then: if every key of `R` is in
the applied set or none is, the processed graph contains `S` and none of
the keys of `R`; if some but not all keys of `R` are applied, the
processed graph contains every key of `R` but not `S`; and the applied
view reports `S` applied exactly when all of `R` was applied. -/
theorem c1_squash_fold_amended (entries pre post : List (Key × List Key))
    (S : Key) (R : List Key) (g0 : MigrationGraph) (applied0 : List Key)
    (hent : entries = pre ++ (S, R) :: post)
    (hSR : S ∉ R)
    (hS0 : S ∈ g0.nodes)
    (hR0 : ∀ a ∈ R, a ∈ g0.nodes)
    (hsep : ∀ en ∈ pre ++ post, (S ≠ en.1 ∧ S ∉ en.2) ∧
      ∀ a ∈ R, a ≠ en.1 ∧ a ∉ en.2) :
    (((∀ a ∈ R, a ∈ applied0) ∨ (∀ a ∈ R, a ∉ applied0)) →
      S ∈ (processReplacements entries ⟨g0, applied0⟩).graph.nodes ∧
      ∀ a ∈ R, a ∉ (processReplacements entries ⟨g0, applied0⟩).graph.nodes) ∧
    (((∃ a ∈ R, a ∈ applied0) ∧ (∃ a ∈ R, a ∉ applied0)) →
      (∀ a ∈ R, a ∈ (processReplacements entries ⟨g0, applied0⟩).graph.nodes) ∧
      S ∉ (processReplacements entries ⟨g0, applied0⟩).graph.nodes) ∧
    (S ∈ (processReplacements entries ⟨g0, applied0⟩).applied_migrations ↔
      ∀ a ∈ R, a ∈ applied0) := by
  subst hent
  have hpre : ∀ en ∈ pre, (S ≠ en.1 ∧ S ∉ en.2) ∧
      ∀ a ∈ R, a ≠ en.1 ∧ a ∉ en.2 :=
    fun en hen => hsep en (List.mem_append_left _ hen)
  have hpost : ∀ en ∈ post, (S ≠ en.1 ∧ S ∉ en.2) ∧
      ∀ a ∈ R, a ≠ en.1 ∧ a ∉ en.2 :=
    fun en hen => hsep en (List.mem_append_right _ hen)
  have hfold : processReplacements (pre ++ (S, R) :: post) ⟨g0, applied0⟩ =
      processReplacements post
        (processReplacement (processReplacements pre ⟨g0, applied0⟩) (S, R)) := by
    show List.foldl processReplacement _ _ = _
    rw [List.foldl_append]
    rfl
  rw [hfold]
  have hST1 : ∀ a ∈ R, a ≠ S := fun a ha hc => hSR (hc ▸ ha)
  have hS1 : S ∈ (processReplacements pre ⟨g0, applied0⟩).graph.nodes :=
    (processReplacements_nodes_pres S pre _ fun en hen => (hpre en hen).1).mpr hS0
  have hR1n : ∀ a ∈ R,
      (a ∈ (processReplacements pre ⟨g0, applied0⟩).graph.nodes ↔ a ∈ g0.nodes) :=
    fun a ha => processReplacements_nodes_pres a pre _
      fun en hen => (hpre en hen).2 a ha
  have hR1a : ∀ a ∈ R,
      (a ∈ (processReplacements pre ⟨g0, applied0⟩).applied_migrations ↔
        a ∈ applied0) :=
    fun a ha => processReplacements_applied_pres a pre _
      fun en hen => ((hpre en hen).2 a ha).1
  have heff := processReplacement_self_effect
    (processReplacements pre ⟨g0, applied0⟩) S R hSR
  have hSpostN : ∀ st2 : LoaderState,
      (S ∈ (processReplacements post st2).graph.nodes ↔ S ∈ st2.graph.nodes) :=
    fun st2 => processReplacements_nodes_pres S post st2
      fun en hen => (hpost en hen).1
  have hRpostN : ∀ a ∈ R, ∀ st2 : LoaderState,
      (a ∈ (processReplacements post st2).graph.nodes ↔ a ∈ st2.graph.nodes) :=
    fun a ha st2 => processReplacements_nodes_pres a post st2
      fun en hen => (hpost en hen).2 a ha
  have hSpostA : ∀ st2 : LoaderState,
      (S ∈ (processReplacements post st2).applied_migrations ↔
        S ∈ st2.applied_migrations) :=
    fun st2 => processReplacements_applied_pres S post st2
      fun en hen => ((hpost en hen).1).1
  refine ⟨?_, ?_, ?_⟩
  · intro hc
    have hc' : (∀ a ∈ R, a ∈ (processReplacements pre ⟨g0, applied0⟩).applied_migrations) ∨
        (∀ a ∈ R, a ∉ (processReplacements pre ⟨g0, applied0⟩).applied_migrations) := by
      rcases hc with hall | hnone
      · exact Or.inl fun a ha => (hR1a a ha).mpr (hall a ha)
      · exact Or.inr fun a ha hmem => hnone a ha ((hR1a a ha).mp hmem)
    obtain ⟨hSkeep, hRgone⟩ := heff.2.1 hc'
    constructor
    · exact (hSpostN _).mpr (hSkeep hS1)
    · intro a ha hmem
      exact hRgone a ha ((hRpostN a ha _).mp hmem)
  · rintro ⟨hex, hnex⟩
    have hex' : ∃ a ∈ R,
        a ∈ (processReplacements pre ⟨g0, applied0⟩).applied_migrations := by
      obtain ⟨a, ha, hmem⟩ := hex
      exact ⟨a, ha, (hR1a a ha).mpr hmem⟩
    have hnex' : ∃ a ∈ R,
        a ∉ (processReplacements pre ⟨g0, applied0⟩).applied_migrations := by
      obtain ⟨a, ha, hmem⟩ := hnex
      exact ⟨a, ha, fun hc => hmem ((hR1a a ha).mp hc)⟩
    obtain ⟨hSgone, hRkeep⟩ := heff.2.2 ⟨hex', hnex'⟩
    constructor
    · intro a ha
      exact (hRpostN a ha _).mpr (hRkeep a ha ((hR1n a ha).mpr (hR0 a ha)))
    · intro hmem
      exact hSgone ((hSpostN _).mp hmem)
  · rw [hSpostA _, heff.1]
    constructor
    · intro h a ha
      exact (hR1a a ha).mp (h a ha)
    · intro h a ha
      exact (hR1a a ha).mpr (h a ha)

theorem c1_squash_fold_amended_witness :
    sqS1 ∈ (processReplacements [(sqS1, [sqA])]
        ⟨⟨[sqA, sqS1], []⟩, [sqA]⟩).graph.nodes ∧
      sqS1 ∈ (processReplacements [(sqS1, [sqA])]
        ⟨⟨[sqA, sqS1], []⟩, [sqA]⟩).applied_migrations := by
  have h := c1_squash_fold_amended [(sqS1, [sqA])] [] [] sqS1 [sqA]
    ⟨[sqA, sqS1], []⟩ [sqA] rfl (by decide) (by decide) (by decide) (by decide)
  have hall : ∀ a ∈ [sqA], a ∈ [sqA] := by decide
  exact ⟨(h.1 (Or.inl hall)).1, h.2.2.mpr hall⟩

end MigrationsModel
